import Mathlib

/-! Idris run-time system: value model, stack frames and the bare-metal memory provider.

A shallow embedding of `rts/idris_rts.h` and `rts/bare-metal/syscalls.c`.

* A `VAL` is a machine word, kept as the natural number of its bit pattern.
  The word width `w` (the width of `intptr_t`) is an explicit parameter.
* A `VAL*` into the value stack is a slot position; pointer arithmetic on it
  counts in slots, as the C arithmetic on `VAL*` does.
* The heap maps the address of a block to the `Closure` stored there; an
  address without a block cannot be read.
* Counts and offsets handed to the stack macros are natural numbers: the code
  generator passes non-negative literals.
* `memcpy` is the C library function: a block copy that is defined on runs that
  do not overlap.
* `stackOverflow` is declared in the header and defined elsewhere; it ends the
  process, as its declaration says.
-/

namespace IdrisRTS

/-! ## Closures (idris_rts.h, lines 30-93) -/

/-- A `VAL` as the bit pattern of the machine word. -/
abbrev VAL := Nat

/-- The null pointer. -/
def NULL : VAL := 0

def CT_CON : Nat := 0
def CT_ARRAY : Nat := 1
def CT_INT : Nat := 2
def CT_BIGINT : Nat := 3
def CT_FLOAT : Nat := 4
def CT_STRING : Nat := 5
def CT_STROFFSET : Nat := 6
def CT_BITS8 : Nat := 7
def CT_BITS16 : Nat := 8
def CT_BITS32 : Nat := 9
def CT_BITS64 : Nat := 10
def CT_UNIT : Nat := 11
def CT_PTR : Nat := 12
def CT_REF : Nat := 13
def CT_FWD : Nat := 14
def CT_MANAGEDPTR : Nat := 15
def CT_RAWDATA : Nat := 16
def CT_CDATA : Nat := 17

/-- The `con` view of a `Closure`: the `uint32_t ty` field, the `uint32_t tag_arity`
field of `info.c` and the argument slots `info.c.args` the block was allocated with. -/
structure Closure where
  ty : Nat
  tag_arity : Nat
  args : List VAL
  deriving DecidableEq, Repr

/-- The heap: the block stored at an address, `none` where nothing can be read. -/
abbrev Heap := VAL → Option Closure

/-- Source: `#define GETTY(x) ((x)->ty)` -/
def GETTY (x : Closure) : Nat := x.ty

/-- Source: `#define SETTY(x,t) ((x)->ty = t)`; the store into a `uint32_t` field. -/
def SETTY (x : Closure) (t : Nat) : Closure := { x with ty := t % 2 ^ 32 }

/-! ## Immediate integers (lines 227-233) -/

/-- Source: `#define MKINT(x) ((void*)((i_int)((((uintptr_t)x)<<1)+1)))` on `w`-bit words. -/
def MKINT (w : Nat) (x : Nat) : VAL := (((x % 2 ^ w) <<< 1) % 2 ^ w + 1) % 2 ^ w

/-- The signed reading `(i_int)x` of a `w`-bit pattern. -/
def toSigned (w : Nat) (x : VAL) : Int :=
  if x % 2 ^ w < 2 ^ (w - 1) then ((x % 2 ^ w : Nat) : Int) else ((x % 2 ^ w : Nat) : Int) - 2 ^ w

/-- Source: `#define GETINT(x) ((i_int)(x)>>1)`, the shift of a signed word being arithmetic. -/
def GETINT (w : Nat) (x : VAL) : Int := toSigned w x / 2

/-- Source: `#define ISINT(x) ((((i_int)x)&1) == 1)`; the `&` of a signed word with 1
is the low bit of its pattern. -/
def ISINT (x : VAL) : Bool := (x &&& 1) == 1

/-- The bit pattern of a signed integer stored in a `w`-bit word: the casts `(i_int)` and
`(uintptr_t)` of an integer value. -/
def ofInt (w : Nat) (x : Int) : VAL := (x % (2 ^ w : Int)).toNat

/-- Source: `#define idris_mkInt(x) MKINT((intptr_t)(x))` -/
def idris_mkInt (w : Nat) (x : Int) : VAL := MKINT w (ofInt w x)

/-- Source: `#define INTOP(op,x,y) MKINT((i_int)((((i_int)x)>>1) op (((i_int)y)>>1)))`; `op` is
the C operator on `i_int`, its result kept in a `w`-bit word. -/
def INTOP (w : Nat) (op : Int → Int → Int) (x y : VAL) : VAL :=
  MKINT w (ofInt w (op (toSigned w x / 2) (toSigned w y / 2)))

/-- Source: `#define ADD(x,y) (void*)(((i_int)x)+(((i_int)y)-1))`, the sum kept in a `w`-bit
word. -/
def ADD (w : Nat) (x y : VAL) : VAL := ofInt w (toSigned w x + (toSigned w y - 1))

/-- Source: `#define MULT(x,y) (MKINT((((i_int)x)>>1) * (((i_int)y)>>1)))` -/
def MULT (w : Nat) (x y : VAL) : VAL :=
  MKINT w (ofInt w ((toSigned w x / 2) * (toSigned w y / 2)))

/-! ## Constructor headers (lines 214-219, 315-323) -/

/-- Source: `#define CTAG(x) (((x)->info.c.tag_arity) >> 8)` -/
def CTAG (x : Closure) : Nat := x.tag_arity >>> 8

/-- Source: `#define CARITY(x) ((x)->info.c.tag_arity & 0x000000ff)` -/
def CARITY (x : Closure) : Nat := x.tag_arity &&& 0x000000ff

/-- Source `TAG(x)`: `ISINT(x) || x == NULL ? (-1) : (GETTY(x) == CT_CON ? (x)->info.c.tag_arity >> 8 : (-1))`.
The value is the one a caller reads into an `int`. Dereferencing `x` is a heap
lookup, `none` when there is no block at `x`. -/
def TAG (heap : Heap) (x : VAL) : Option Int :=
  if ISINT x || x == NULL then some (-1)
  else
    match heap x with
    | none => none
    | some cl => if GETTY cl == CT_CON then some ((cl.tag_arity >>> 8 : Nat) : Int) else some (-1)

/-- Source `ARITY(x)`: `ISINT(x) || x == NULL ? (-1) : (GETTY(x) == CT_CON ? (x)->info.c.tag_arity & 0x000000ff : (-1))`. -/
def ARITY (heap : Heap) (x : VAL) : Option Int :=
  if ISINT x || x == NULL then some (-1)
  else
    match heap x with
    | none => none
    | some cl =>
      if GETTY cl == CT_CON then some ((cl.tag_arity &&& 0x000000ff : Nat) : Int) else some (-1)

/-- The three statements of `allocCon(cl, vm, t, a, o)`:
`cl = allocate(sizeof(Closure) + sizeof(VAL)*a, o); SETTY(cl, CT_CON);
cl->info.c.tag_arity = ((t) << 8) | (a);`.
`allocate` is not part of the header: `fresh` is the block it hands back for a
request of `a` argument slots. The store into `tag_arity` is a `uint32_t` store. -/
def allocCon (fresh : Nat → Closure) (t a : Nat) : Closure :=
  let cl := fresh a
  let cl := SETTY cl CT_CON
  { cl with tag_arity := ((t <<< 8) ||| a) % 2 ^ 32 }

/-- Source `updateCon(cl, old, t, a)`: `cl = old; SETTY(cl, CT_CON); cl->info.c.tag_arity = ((t) << 8) | (a);` -/
def updateCon (old : Closure) (t a : Nat) : Closure :=
  let cl := old
  let cl := SETTY cl CT_CON
  { cl with tag_arity := ((t <<< 8) ||| a) % 2 ^ 32 }

/-- A block as `allocate` returns it for `a` argument slots: nothing written yet. -/
def blankBlock (a : Nat) : Closure := { ty := 0, tag_arity := 0, args := List.replicate a NULL }

/-- Source: `#define GETARG(x, i) ((x)->info.c.args)[i]`; reading past the block is no value. -/
def GETARG (x : Closure) (i : Nat) : Option VAL := x.args.get? i

/-- Source: `#define SETARG(x, i, a) ((x)->info.c.args)[i] = ((VAL)(a))` -/
def SETARG (x : Closure) (i : Nat) (a : VAL) : Option Closure :=
  if i < x.args.length then some { x with args := x.args.set i a } else none

/-! ## The value stack (lines 107-137, 196-198, 251-262, 291-294) -/

/-- The fields of `struct VM` the stack and constructor code touches. `stack` is the
memory of value slots by slot position: the slots of the value stack are the
positions from `valstack` up to, not including, `stack_max`; other positions
are the memory around it. -/
structure VM where
  valstack : Nat
  valstack_top : Nat
  valstack_base : Nat
  stack_max : Nat
  stack : Nat → VAL
  heap : Heap
  ret : VAL
  reg1 : VAL

/-- How a run of stack code ends: it runs to its end in a state, or `stackOverflow`
was called in a state. -/
inductive Outcome where
  | done (vm : VM)
  | overflow (vm : VM)

/-- Sequencing of stack code: what follows a fault does not run. -/
def Outcome.andThen (o : Outcome) (k : VM → Outcome) : Outcome :=
  match o with
  | .done vm => k vm
  | .overflow vm => .overflow vm

/-- Whether the run ended in the stack-overflow fault. -/
def Outcome.faulted : Outcome → Bool
  | .done _ => false
  | .overflow _ => true

/-- The state in which the run ended. -/
def Outcome.state : Outcome → VM
  | .done vm => vm
  | .overflow vm => vm

/-- Modelled from the spec: `void stackOverflow(void)` is only declared in idris_rts.h
("Handle stack overflow. Just reports an error and exits."), its body is not among
the sources. It is the fatal fault of section 7: the process ends in the state in
which the call was made. -/
def stackOverflow (vm : VM) : Outcome := .overflow vm

/-- Source: `#define LOC(x) (*(vm->valstack_base + (x)))` -/
def LOC (vm : VM) (x : Nat) : VAL := vm.stack (vm.valstack_base + x)

/-- Source: `#define TOP(x) (*(vm->valstack_top + (x)))` -/
def TOP (vm : VM) (x : Nat) : VAL := vm.stack (vm.valstack_top + x)

/-- The call `memset(p, 0, n*sizeof(VAL))` on slot memory: the `n` slots from `p` become 0. -/
def memset (mem : Nat → VAL) (p n : Nat) : Nat → VAL :=
  fun i => if p ≤ i ∧ i < p + n then 0 else mem i

/-- Source: `#define RESERVE(x) if (vm->valstack_top+(x) > vm->stack_max) { stackOverflow(); }
else { memset(vm->valstack_top, 0, (x)*sizeof(VAL)); }` -/
def RESERVE (x : Nat) (vm : VM) : Outcome :=
  if vm.valstack_top + x > vm.stack_max then stackOverflow vm
  else .done { vm with stack := memset vm.stack vm.valstack_top x }

/-- Source: `#define ADDTOP(x) vm->valstack_top += (x)` -/
def ADDTOP (x : Nat) (vm : VM) : VM := { vm with valstack_top := vm.valstack_top + x }

/-- Source: `#define TOPBASE(x) vm->valstack_top = vm->valstack_base + (x)` -/
def TOPBASE (x : Nat) (vm : VM) : VM := { vm with valstack_top := vm.valstack_base + x }

/-- Source: `#define BASETOP(x) vm->valstack_base = vm->valstack_top + (x)` -/
def BASETOP (x : Nat) (vm : VM) : VM := { vm with valstack_base := vm.valstack_top + x }

/-- Source: `#define STOREOLD myoldbase = vm->valstack_base`; the value stored in the local. -/
def STOREOLD (vm : VM) : Nat := vm.valstack_base

/-- Source: `#define REBASE vm->valstack_base = oldbase` -/
def REBASE (oldbase : Nat) (vm : VM) : VM := { vm with valstack_base := oldbase }

/-- Source: `typedef void(*func)(VM*, VAL*);` a function takes the VM and the previous
stack base. -/
abbrev func := VM → Nat → Outcome

/-- Source: `#define CALL(f) f(vm, myoldbase);` -/
def CALL (f : func) (vm : VM) (myoldbase : Nat) : Outcome := f vm myoldbase

/-- Source: `#define TAILCALL(f) f(vm, oldbase);` -/
def TAILCALL (f : func) (vm : VM) (oldbase : Nat) : Outcome := f vm oldbase

/-- A frame reservation: `RESERVE(k); ADDTOP(k);`. -/
def reserveFrame (k : Nat) (vm : VM) : Outcome :=
  (RESERVE k vm).andThen fun v => .done (ADDTOP k v)

/-- A sequence of frame reservations, one after the other. -/
def reserveFrames : List Nat → VM → Outcome
  | [], vm => .done vm
  | k :: ks, vm => (reserveFrame k vm).andThen (reserveFrames ks)

/-- The caller side of an ordinary call: `STOREOLD; BASETOP(n); CALL(f);` with the
local `myoldbase` of `INITFRAME`. -/
def callSequence (n : Nat) (f : func) (vm : VM) : Outcome :=
  let myoldbase := STOREOLD vm
  let vm := BASETOP n vm
  CALL f vm myoldbase

/-- A function whose body is `body` and whose last statement is `REBASE`. -/
def returning (body : func) : func :=
  fun vm oldbase => (body vm oldbase).andThen fun v => .done (REBASE oldbase v)

/-- A function whose body is `body` and whose last statement is `TAILCALL(next)`. -/
def tailCalling (body : func) (next : func) : func :=
  fun vm oldbase => (body vm oldbase).andThen fun v => TAILCALL next v oldbase

/-- A chain of tail calls: the functions with bodies `bodies`, each ending in a tail
call of the next one, the last of them tail-calling a function that ends in `REBASE`. -/
def tailChain : List func → func → func
  | [], last => returning last
  | b :: bs, last => tailCalling b (tailChain bs last)

/-- Writing `n` slots from position `dst` on with `src 0`, ..., `src (n-1)`. -/
def copySlots (mem : Nat → VAL) (dst : Nat) (src : Nat → VAL) (n : Nat) : Nat → VAL :=
  fun i => if dst ≤ i ∧ i < dst + n then src (i - dst) else mem i

/-- The call `memcpy(dst, src, n*sizeof(VAL))` within slot memory. The C library defines
the copy only when the two runs do not overlap; on overlapping runs there is no
defined result. -/
def memcpy (mem : Nat → VAL) (dst src n : Nat) : Option (Nat → VAL) :=
  if dst + n ≤ src ∨ src + n ≤ dst then some (copySlots mem dst (fun j => mem (src + j)) n)
  else none

/-- Source: `#define PROJECT(vm,r,loc,num) memcpy(&(LOC(loc)), &((r)->info.c.args), sizeof(VAL)*num)`.
The source run is the argument slots of the block at `r`, which is heap memory and
so apart from the stack; reading more slots than the block has is undefined. -/
def PROJECT (vm : VM) (r : VAL) (loc num : Nat) : Option VM :=
  match vm.heap r with
  | none => none
  | some cl =>
    if num ≤ cl.args.length then
      some { vm with stack := copySlots vm.stack (vm.valstack_base + loc) (fun j => cl.args.getD j NULL) num }
    else none

/-- Source: `#define SLIDE(vm, args) memcpy(&(LOC(0)), &(TOP(0)), sizeof(VAL)*args)` -/
def SLIDE (vm : VM) (args : Nat) : Option VM :=
  match memcpy vm.stack (vm.valstack_base + 0) (vm.valstack_top + 0) args with
  | none => none
  | some mem => some { vm with stack := mem }

/-! ## The bare-metal memory provider (bare-metal/syscalls.c) -/

/-- The state of `_sbrk`: the static `heap` pointer, 0 while it is still `NULL`. -/
structure SbrkState where
  heap : Nat
  deriving DecidableEq, Repr

/-- The state before the first call: `static unsigned char *heap = NULL;` -/
def SbrkState.init : SbrkState := { heap := NULL }

/-- Source: `caddr_t _sbrk(int incr)` on a machine with `w`-bit addresses, `heapBase` being
`&__HeapBase`. Returns the previous break and the new state. -/
def _sbrk (w : Nat) (heapBase : Nat) (s : SbrkState) (incr : Int) : Nat × SbrkState :=
  let heap := if s.heap == NULL then heapBase else s.heap
  let prev_heap := heap
  let heap := (((heap : Int) + incr) % (2 ^ w : Int)).toNat
  (prev_heap, { heap := heap })

/-- The break in a state: where the next block starts. -/
def SbrkState.brk (heapBase : Nat) (s : SbrkState) : Nat :=
  if s.heap == NULL then heapBase else s.heap

/-- A sequence of calls of `_sbrk`: the addresses returned, and the last state. -/
def sbrkCalls (w : Nat) (heapBase : Nat) : SbrkState → List Int → List Nat × SbrkState
  | s, [] => ([], s)
  | s, i :: is =>
    let r := _sbrk w heapBase s i
    let rest := sbrkCalls w heapBase r.2 is
    (r.1 :: rest.1, rest.2)

/-- A small VM for the examples: the value stack is the four slots 0 to 3, slot `i`
holds `10 + i`, the frame base is 0 and the top is 2; the heap is empty. -/
def sampleVM : VM :=
  { valstack := 0, valstack_top := 2, valstack_base := 0, stack_max := 4,
    stack := fun i => 10 + i, heap := fun _ => none, ret := NULL, reg1 := NULL }

/-- A VM with a constructor on the heap: as `sampleVM`, with a block of tag 3 and arity 2
holding the arguments 85 and 4242 at address 4096. -/
def conVM : VM :=
  { sampleVM with
    heap := fun a => if a = 4096 then some ⟨CT_CON, 0x0302, [85, 4242]⟩ else none }

/-- A VM about to make a tail call: the frame has one local (base 0, top 1) and the two
arguments of the callee are in `TOP(0)` and `TOP(1)`, the slots 1 and 2. -/
def slideVM : VM :=
  { valstack := 0, valstack_top := 1, valstack_base := 0, stack_max := 4,
    stack := fun i => 10 + i, heap := fun _ => none, ret := NULL, reg1 := NULL }

/-! # Properties -/

/-! ## Immediate integers against references -/

theorem ISINT_eq_low_bit (p : VAL) : ISINT p = decide (p % 2 = 1) := by
  unfold ISINT
  rw [Nat.and_one_is_mod]
  cases h : p % 2 == 1 <;> simp_all

theorem MKINT_eq (w : Nat) (hw : 0 < w) (x : Nat) :
    MKINT w x = 2 * (x % 2 ^ (w - 1)) + 1 := by
  obtain ⟨v, rfl⟩ : ∃ v, w = v + 1 := ⟨w - 1, by omega⟩
  unfold MKINT
  have hpos : 0 < 2 ^ v := Nat.pos_pow_of_pos v (by decide)
  have hlt : x % 2 ^ v < 2 ^ v := Nat.mod_lt _ hpos
  have h2 : (2 : Nat) ^ (v + 1) = 2 * 2 ^ v := by rw [pow_succ]; ring
  have hs : (x % 2 ^ (v + 1)) <<< 1 = 2 * (x % 2 ^ (v + 1)) := by
    rw [Nat.shiftLeft_eq]; ring
  rw [hs, h2, Nat.mul_mod_mul_left, Nat.mod_mod_of_dvd x (Dvd.intro_left 2 rfl)]
  simp only [Nat.add_sub_cancel]
  exact Nat.mod_eq_of_lt (by omega)

/-- C1: on words of any positive width the low bit tells an immediate integer from a
reference. `ISINT (MKINT x)` holds for every word `x`; `ISINT` fails on `NULL` and on
every even address; so `MKINT x` is neither `NULL` nor an even (aligned) address. -/
theorem C1_low_bit_discriminates (w : Nat) (hw : 0 < w) (x : Nat) :
    ISINT (MKINT w x) = true
    ∧ ISINT NULL = false
    ∧ (∀ p : VAL, p % 2 = 0 → ISINT p = false)
    ∧ MKINT w x ≠ NULL
    ∧ (∀ p : VAL, p % 2 = 0 → MKINT w x ≠ p) := by
  have hm : MKINT w x % 2 = 1 := by
    rw [MKINT_eq w hw x]
    generalize x % 2 ^ (w - 1) = y
    unfold VAL
    omega
  refine ⟨?_, ?_, ?_, ?_, ?_⟩
  · rw [ISINT_eq_low_bit]; simp [hm]
  · rfl
  · intro p hp
    rw [ISINT_eq_low_bit]; simp [hp]
  · intro h
    rw [h] at hm
    simp [NULL] at hm
  · intro p hp h
    rw [h] at hm
    unfold VAL at *
    omega

/-- C1 at 64-bit words, for the word 5 and against the aligned address 4096. -/
theorem C1_low_bit_discriminates_witness :
    ISINT (MKINT 64 5) = true ∧ ISINT NULL = false ∧ ISINT 4096 = false
    ∧ MKINT 64 5 ≠ NULL ∧ MKINT 64 5 ≠ 4096 :=
  have h := C1_low_bit_discriminates 64 (by decide) 5
  ⟨h.1, h.2.1, h.2.2.1 4096 (by decide), h.2.2.2.1, h.2.2.2.2 4096 (by decide)⟩

/-! ## Constructor headers -/

/-- C2: with tag 0 and arity 256, both within 16 bits, the header `allocCon` writes reads
back as tag 1 and arity 0, while the block was allocated with 256 argument slots. -/
theorem C2_allocCon_arity_256_read_back :
    CTAG (allocCon blankBlock 0 256) = 1
    ∧ CARITY (allocCon blankBlock 0 256) = 0
    ∧ (allocCon blankBlock 0 256).args.length = 256 := by
  refine ⟨by decide, by decide, ?_⟩
  show (List.replicate 256 NULL).length = 256
  exact List.length_replicate 256 NULL

/-- C3: `TAG` and `ARITY` are the sentinel -1 on every immediate integer and on `NULL`,
whatever the heap holds (also a heap in which no address can be read), and on every
readable heap value whose type is not `CT_CON`. -/
theorem C3_TAG_ARITY_sentinel (heap : Heap) (x : VAL) :
    ((ISINT x = true ∨ x = NULL) → TAG heap x = some (-1) ∧ ARITY heap x = some (-1))
    ∧ (∀ cl : Closure, heap x = some cl → GETTY cl ≠ CT_CON →
        TAG heap x = some (-1) ∧ ARITY heap x = some (-1)) := by
  constructor
  · intro h
    have hc : (ISINT x || x == NULL) = true := by
      rcases h with h | h
      · simp [h]
      · simp [h]
    simp [TAG, ARITY, hc]
  · intro cl hcl hty
    unfold TAG ARITY
    by_cases hc : (ISINT x || x == NULL) = true
    · simp [hc]
    · simp [hc, hcl, hty]

/-- C3 on the immediate integer 7, on `NULL` (in a heap with no readable address) and on
a string block at address 16. -/
theorem C3_TAG_ARITY_sentinel_witness :
    (TAG (fun _ => none) 7 = some (-1) ∧ ARITY (fun _ => none) 7 = some (-1))
    ∧ (TAG (fun _ => none) NULL = some (-1) ∧ ARITY (fun _ => none) NULL = some (-1))
    ∧ (TAG (fun _ => some ⟨CT_STRING, 0x0302, []⟩) 16 = some (-1)
        ∧ ARITY (fun _ => some ⟨CT_STRING, 0x0302, []⟩) 16 = some (-1)) :=
  ⟨(C3_TAG_ARITY_sentinel (fun _ => none) 7).1 (Or.inl (by decide)),
   (C3_TAG_ARITY_sentinel (fun _ => none) NULL).1 (Or.inr rfl),
   (C3_TAG_ARITY_sentinel (fun _ => some ⟨CT_STRING, 0x0302, []⟩) 16).2
      ⟨CT_STRING, 0x0302, []⟩ rfl (by decide)⟩



theorem reserveFrame_fault (k : Nat) (vm : VM) (h : vm.valstack_top + k > vm.stack_max) :
    reserveFrame k vm = .overflow vm := by
  simp [reserveFrame, RESERVE, stackOverflow, Outcome.andThen, h]

theorem reserveFrame_done (k : Nat) (vm : VM) (h : vm.valstack_top + k ≤ vm.stack_max) :
    reserveFrame k vm
      = .done (ADDTOP k { vm with stack := memset vm.stack vm.valstack_top k }) := by
  have h2 : ¬ (vm.valstack_top + k > vm.stack_max) := by omega
  simp [reserveFrame, RESERVE, Outcome.andThen, h2]

theorem memset_above (mem : Nat → VAL) (p n i : Nat) (h : p + n ≤ i) : memset mem p n i = mem i := by
  unfold memset
  rw [if_neg]
  omega

theorem reserveFrames_append (pre post : List Nat) (vm : VM) :
    reserveFrames (pre ++ post) vm = (reserveFrames pre vm).andThen (reserveFrames post) := by
  induction pre generalizing vm with
  | nil => rfl
  | cons k ks ih =>
    simp only [List.cons_append, reserveFrames]
    cases reserveFrame k vm with
    | done v => simp only [Outcome.andThen]; exact ih v
    | overflow v => rfl

theorem reserveFrame_done_spec (k : Nat) (vm : VM) (h : vm.valstack_top + k ≤ vm.stack_max) :
    ∃ v, reserveFrame k vm = .done v
      ∧ v.valstack_top = vm.valstack_top + k
      ∧ v.stack_max = vm.stack_max
      ∧ (∀ i, vm.stack_max ≤ i → v.stack i = vm.stack i) :=
  ⟨_, reserveFrame_done k vm h, rfl, rfl, fun i hi => memset_above _ _ _ _ (by omega)⟩

theorem reserveFrames_spec (ks : List Nat) (vm : VM) (h : vm.valstack_top ≤ vm.stack_max) :
    (reserveFrames ks vm).state.valstack_top ≤ vm.stack_max
    ∧ (reserveFrames ks vm).state.stack_max = vm.stack_max
    ∧ (∀ i, vm.stack_max ≤ i → (reserveFrames ks vm).state.stack i = vm.stack i)
    ∧ ((reserveFrames ks vm).faulted = false ↔ vm.valstack_top + ks.sum ≤ vm.stack_max)
    ∧ ((reserveFrames ks vm).faulted = false →
        (reserveFrames ks vm).state.valstack_top = vm.valstack_top + ks.sum)
    ∧ ((reserveFrames ks vm).faulted = true →
        ∃ pre k post v, ks = pre ++ k :: post
          ∧ reserveFrames pre vm = .done v
          ∧ v.valstack_top = vm.valstack_top + pre.sum
          ∧ v.valstack_top + k > v.stack_max
          ∧ reserveFrames ks vm = .overflow v) := by
  induction ks generalizing vm with
  | nil =>
    simp [reserveFrames, Outcome.state, Outcome.faulted, h]
  | cons k ks ih =>
    by_cases hk : vm.valstack_top + k > vm.stack_max
    · have e : reserveFrames (k :: ks) vm = .overflow vm := by
        simp [reserveFrames, reserveFrame_fault k vm hk, Outcome.andThen]
      rw [e]
      refine ⟨h, rfl, fun _ _ => rfl, ?_, ?_, ?_⟩
      · simp only [Outcome.faulted, List.sum_cons]
        constructor
        · intro hf; cases hf
        · intro hs; omega
      · intro hf; cases hf
      · intro _
        exact ⟨[], k, ks, vm, rfl, rfl, by simp, hk, rfl⟩
    · obtain ⟨v1, hv, htop, hmax, hfr⟩ := reserveFrame_done_spec k vm (by omega)
      have e : ∀ l, reserveFrames (k :: l) vm = reserveFrames l v1 := by
        intro l
        simp [reserveFrames, hv, Outcome.andThen]
      rw [e]
      obtain ⟨i1, i2, i3, i4, i5, i6⟩ := ih v1 (by omega)
      rw [hmax] at i1 i2 i3 i4
      rw [htop] at i4 i5
      refine ⟨i1, i2, ?_, ?_, ?_, ?_⟩
      · intro i hi
        rw [i3 i hi, hfr i hi]
      · rw [i4, List.sum_cons]; omega
      · intro hf
        rw [i5 hf, List.sum_cons]; omega
      · intro hf
        obtain ⟨pre, k1, post, v, e1, e2, e3, e4, e5⟩ := i6 hf
        refine ⟨k :: pre, k1, post, v, by rw [e1]; rfl, ?_, ?_, e4, e5⟩
        · rw [e]; exact e2
        · rw [e3, htop, List.sum_cons]; omega
/-- C4: `RESERVE(k)` calls `stackOverflow` exactly when `valstack_top + k > stack_max`, and
then the fault is raised in the very state `RESERVE` was entered in: no slot and no
cursor differs. -/
theorem C4_RESERVE_fault_iff (k : Nat) (vm : VM) :
    ((RESERVE k vm).faulted = true ↔ vm.valstack_top + k > vm.stack_max)
    ∧ ((RESERVE k vm).faulted = true →
        RESERVE k vm = stackOverflow vm
        ∧ (RESERVE k vm).state = vm
        ∧ (∀ i, (RESERVE k vm).state.stack i = vm.stack i)) := by
  by_cases h : vm.valstack_top + k > vm.stack_max
  · have e : RESERVE k vm = stackOverflow vm := by simp [RESERVE, h]
    rw [e]
    simp [stackOverflow, Outcome.faulted, Outcome.state, h]
  · have e : RESERVE k vm = .done { vm with stack := memset vm.stack vm.valstack_top k } := by
      simp [RESERVE, h]
    rw [e]
    simp [Outcome.faulted, h]

/-- C4 on the sample VM (top 2, ceiling 4): reserving 3 slots faults and leaves the state
as it was. -/
theorem C4_RESERVE_fault_iff_witness :
    (RESERVE 3 sampleVM).faulted = true ∧ (RESERVE 3 sampleVM).state = sampleVM :=
  have h := C4_RESERVE_fault_iff 3 sampleVM
  have hf : (RESERVE 3 sampleVM).faulted = true := h.1.2 (by decide)
  ⟨hf, (h.2 hf).2.1⟩

/-- C5: from a state with `valstack_top <= stack_max`, a sequence of frame reservations
`RESERVE(k); ADDTOP(k)` either succeeds throughout or stops in the stack-overflow fault,
never both. After every prefix of the sequence `valstack_top <= stack_max` holds and
no slot at or above `stack_max` differs from the start. The sequence succeeds exactly
when the reservations fit under the ceiling; otherwise the fault fires at the first
reservation that would exceed it, in the state the reservations before it produced. -/
theorem C5_stack_safety (vm : VM) (ks : List Nat) (h : vm.valstack_top ≤ vm.stack_max) :
    (∀ n,
      reserveFrames ks vm
        = (reserveFrames (ks.take n) vm).andThen (reserveFrames (ks.drop n))
      ∧ (reserveFrames (ks.take n) vm).state.valstack_top ≤ vm.stack_max
      ∧ (reserveFrames (ks.take n) vm).state.stack_max = vm.stack_max
      ∧ (∀ i, vm.stack_max ≤ i → (reserveFrames (ks.take n) vm).state.stack i = vm.stack i))
    ∧ ((reserveFrames ks vm).faulted = false ↔ vm.valstack_top + ks.sum ≤ vm.stack_max)
    ∧ ((reserveFrames ks vm).faulted = false →
        (reserveFrames ks vm).state.valstack_top = vm.valstack_top + ks.sum)
    ∧ ((reserveFrames ks vm).faulted = true →
        ∃ pre k post v, ks = pre ++ k :: post
          ∧ reserveFrames pre vm = .done v
          ∧ v.valstack_top = vm.valstack_top + pre.sum
          ∧ v.valstack_top + k > v.stack_max
          ∧ reserveFrames ks vm = .overflow v)
    ∧ ¬ ((∃ v, reserveFrames ks vm = .done v) ∧ (∃ v, reserveFrames ks vm = .overflow v)) := by
  obtain ⟨_, _, _, i4, i5, i6⟩ := reserveFrames_spec ks vm h
  refine ⟨?_, i4, i5, i6, ?_⟩
  · intro n
    obtain ⟨j1, j2, j3, _⟩ := reserveFrames_spec (ks.take n) vm h
    refine ⟨?_, j1, j2, j3⟩
    rw [← reserveFrames_append, List.take_append_drop]
  · rintro ⟨⟨v, hv⟩, ⟨u, hu⟩⟩
    rw [hv] at hu
    cases hu

/-- C5 on the sample VM (top 2, ceiling 4) and three reservations of one slot: the run
ends in the fault and the slot at the ceiling is as before. -/
theorem C5_stack_safety_witness :
    sampleVM.valstack_top ≤ sampleVM.stack_max
    ∧ (reserveFrames [1, 1, 1] sampleVM).faulted ≠ false
    ∧ (reserveFrames [1, 1, 1] sampleVM).state.stack 4 = 14 :=
  have h := C5_stack_safety sampleVM [1, 1, 1] (by decide)
  ⟨by decide, fun hf => absurd (h.2.1.1 hf) (by decide), ((h.1 3).2.2.2 4 (by decide))⟩

/-! ## Calls and tail calls -/

/-- C6: after `STOREOLD; BASETOP(n); CALL(f)` with `f` ending in `REBASE`, whatever the
body of `f` did to the VM, `valstack_base` is what it was at `STOREOLD`: every
finished call ends with that base, and the call finishes whenever the body of `f`
does, in the state the body left but for the base. -/
theorem C6_call_restores_base (vm : VM) (n : Nat) (body : func) :
    (∀ v, callSequence n (returning body) vm = .done v → v.valstack_base = vm.valstack_base)
    ∧ (∀ u, body (BASETOP n vm) (STOREOLD vm) = .done u →
        callSequence n (returning body) vm = .done (REBASE vm.valstack_base u)) := by
  have key : callSequence n (returning body) vm
      = (body (BASETOP n vm) (STOREOLD vm)).andThen fun v => .done (REBASE vm.valstack_base v) := rfl
  constructor
  · intro v hv
    rw [key] at hv
    cases hb : body (BASETOP n vm) (STOREOLD vm) with
    | done u =>
      rw [hb] at hv
      simp only [Outcome.andThen, Outcome.done.injEq] at hv
      rw [← hv]
      rfl
    | overflow u =>
      rw [hb] at hv
      cases hv
  · intro u hu
    rw [key, hu]
    rfl

/-- C6 on the sample VM, with a callee whose body moves the base to 99 before `REBASE`. -/
theorem C6_call_restores_base_witness :
    callSequence 1 (returning fun v _ => .done { v with valstack_base := 99 }) sampleVM
        = .done (REBASE sampleVM.valstack_base { BASETOP 1 sampleVM with valstack_base := 99 })
    ∧ (REBASE sampleVM.valstack_base { BASETOP 1 sampleVM with valstack_base := 99 }).valstack_base = 0 :=
  ⟨(C6_call_restores_base sampleVM 1 (fun v _ => .done { v with valstack_base := 99 })).2 _ rfl, rfl⟩

theorem tailChain_base (bodies : List func) (last : func) (vm : VM) (oldbase : Nat) (v : VM)
    (h : tailChain bodies last vm oldbase = .done v) : v.valstack_base = oldbase := by
  induction bodies generalizing vm with
  | nil =>
    simp only [tailChain, returning] at h
    cases hb : last vm oldbase with
    | done u =>
      rw [hb] at h
      simp only [Outcome.andThen, Outcome.done.injEq] at h
      rw [← h]
      rfl
    | overflow u =>
      rw [hb] at h
      cases h
  | cons b bs ih =>
    simp only [tailChain, tailCalling] at h
    cases hb : b vm oldbase with
    | done u =>
      rw [hb] at h
      exact ih u h
    | overflow u =>
      rw [hb] at h
      cases h

theorem tailChain_finishes (bodies : List func) (last : func) (vm : VM) (oldbase : Nat)
    (hb : ∀ b ∈ bodies, ∀ u o, (b u o).faulted = false)
    (hl : ∀ u o, (last u o).faulted = false) :
    ∃ v, tailChain bodies last vm oldbase = .done v := by
  induction bodies generalizing vm with
  | nil =>
    simp only [tailChain, returning]
    have := hl vm oldbase
    cases hr : last vm oldbase with
    | done u => exact ⟨_, rfl⟩
    | overflow u => rw [hr] at this; cases this
  | cons b bs ih =>
    simp only [tailChain, tailCalling]
    have := hb b (List.mem_cons_self _ _) vm oldbase
    cases hr : b vm oldbase with
    | done u =>
      exact ih u (fun c hc => hb c (List.mem_cons_of_mem _ hc))
    | overflow u => rw [hr] at this; cases this

/-- C7: `TAILCALL(f)` runs `f` on the VM as it stands and with the very `oldbase` the
current function received. So a chain of any number of tail calls whose last function
ends in `REBASE`, when it finishes, leaves `valstack_base` equal to the `oldbase` the
first function received; and it finishes whenever no body in it faults. -/
theorem C7_tail_calls_keep_oldbase (bodies : List func) (last : func) (vm : VM) (oldbase : Nat) :
    (∀ f : func, TAILCALL f vm oldbase = f vm oldbase)
    ∧ (∀ v, tailChain bodies last vm oldbase = .done v → v.valstack_base = oldbase)
    ∧ ((∀ b ∈ bodies, ∀ u o, (b u o).faulted = false) → (∀ u o, (last u o).faulted = false) →
        ∃ v, tailChain bodies last vm oldbase = .done v ∧ v.valstack_base = oldbase) := by
  refine ⟨fun _ => rfl, fun v hv => tailChain_base bodies last vm oldbase v hv, ?_⟩
  intro hb hl
  obtain ⟨v, hv⟩ := tailChain_finishes bodies last vm oldbase hb hl
  exact ⟨v, hv, tailChain_base bodies last vm oldbase v hv⟩

/-- C7 on the sample VM: two tail calls whose bodies move the base, then a function
ending in `REBASE`, entered with `oldbase` 7. -/
theorem C7_tail_calls_keep_oldbase_witness :
    ∃ v, tailChain [fun u _ => .done (BASETOP 1 u), fun u _ => .done (BASETOP 2 u)]
        (fun u _ => .done u) sampleVM 7 = .done v ∧ v.valstack_base = 7 :=
  (C7_tail_calls_keep_oldbase [fun u _ => .done (BASETOP 1 u), fun u _ => .done (BASETOP 2 u)]
      (fun u _ => .done u) sampleVM 7).2.2
    (by intro b hb u o; simp at hb; rcases hb with rfl | rfl <;> rfl)
    (fun _ _ => rfl)

/-! ## Block copies -/

theorem copySlots_inside (mem : Nat → VAL) (dst : Nat) (src : Nat → VAL) (n i : Nat) (h : i < n) :
    copySlots mem dst src n (dst + i) = src i := by
  unfold copySlots
  rw [if_pos (by omega), Nat.add_sub_cancel_left]

theorem copySlots_outside (mem : Nat → VAL) (dst : Nat) (src : Nat → VAL) (n j : Nat)
    (h : ¬ (dst ≤ j ∧ j < dst + n)) : copySlots mem dst src n j = mem j := by
  unfold copySlots
  rw [if_neg h]

theorem PROJECT_spec (vm : VM) (r : VAL) (cl : Closure) (loc num : Nat)
    (hr : vm.heap r = some cl) (hn : num ≤ cl.args.length) :
    ∃ v, PROJECT vm r loc num = some v
      ∧ (∀ i, i < num → GETARG cl i = some (LOC v (loc + i)))
      ∧ (∀ j, ¬ (vm.valstack_base + loc ≤ j ∧ j < vm.valstack_base + loc + num) →
          v.stack j = vm.stack j)
      ∧ v.heap = vm.heap
      ∧ v.valstack = vm.valstack ∧ v.valstack_top = vm.valstack_top
      ∧ v.valstack_base = vm.valstack_base ∧ v.stack_max = vm.stack_max := by
  let mem := copySlots vm.stack (vm.valstack_base + loc) (fun j => cl.args.getD j NULL) num
  refine ⟨{ vm with stack := mem }, by simp only [PROJECT, hr, if_pos hn, mem], ?_, ?_,
    rfl, rfl, rfl, rfl, rfl⟩
  · intro i hi
    show cl.args.get? i = some (copySlots vm.stack (vm.valstack_base + loc)
      (fun j => cl.args.getD j NULL) num (vm.valstack_base + (loc + i)))
    rw [← Nat.add_assoc, copySlots_inside _ _ _ _ _ hi]
    have hlt : i < cl.args.length := by omega
    simp [List.getD, List.get?_eq_getElem?, List.getElem?_eq_getElem hlt]
  · intro j hj
    show mem j = vm.stack j
    exact copySlots_outside _ _ _ _ _ hj

/-- C8: for a constructor `r` whose arity is at least `num`, `PROJECT(vm, r, loc, num)` is
defined and afterwards `LOC(loc + i)` is `GETARG(r, i)` for every `i < num`, every slot
outside the `num` slots from `LOC(loc)` is unchanged, and so are the heap (and `r` in
it) and the four stack cursors. -/
theorem C8_PROJECT_preserves_order (vm : VM) (r : VAL) (cl : Closure) (loc num : Nat)
    (hr : vm.heap r = some cl) (_hcon : GETTY cl = CT_CON)
    (harity : cl.args.length = CARITY cl) (hnum : num ≤ CARITY cl) :
    ∃ v, PROJECT vm r loc num = some v
      ∧ (∀ i, i < num → GETARG cl i = some (LOC v (loc + i)))
      ∧ (∀ j, ¬ (vm.valstack_base + loc ≤ j ∧ j < vm.valstack_base + loc + num) →
          v.stack j = vm.stack j)
      ∧ v.heap = vm.heap ∧ v.heap r = some cl
      ∧ v.valstack = vm.valstack ∧ v.valstack_top = vm.valstack_top
      ∧ v.valstack_base = vm.valstack_base ∧ v.stack_max = vm.stack_max := by
  obtain ⟨v, h1, h2, h3, h4, h5⟩ := PROJECT_spec vm r cl loc num hr (by rw [harity]; exact hnum)
  exact ⟨v, h1, h2, h3, h4, by rw [h4]; exact hr, h5⟩

/-- C8 on the constructor of `conVM` (tag 3, arguments 85 and 4242), projected into the
locals 1 and 2. -/
theorem C8_PROJECT_preserves_order_witness :
    ∃ v, PROJECT conVM 4096 1 2 = some v
      ∧ LOC v 1 = 85 ∧ LOC v 2 = 4242 ∧ v.stack 0 = 10 ∧ v.stack 3 = 13 :=
  have ⟨v, h1, h2, h3, _⟩ :=
    C8_PROJECT_preserves_order conVM 4096 ⟨CT_CON, 0x0302, [85, 4242]⟩ 1 2 rfl rfl
      (by decide) (by decide)
  ⟨v, h1, (Option.some.inj (h2 0 (by decide))).symm, (Option.some.inj (h2 1 (by decide))).symm,
    h3 0 (by decide), h3 3 (by decide)⟩

theorem SLIDE_disjoint (vm : VM) (args : Nat)
    (h : vm.valstack_base + args ≤ vm.valstack_top) :
    ∃ v, SLIDE vm args = some v
      ∧ (∀ i, i < args → LOC v i = TOP vm i)
      ∧ (∀ j, ¬ (vm.valstack_base ≤ j ∧ j < vm.valstack_base + args) → v.stack j = vm.stack j)
      ∧ v.valstack_top = vm.valstack_top ∧ v.valstack_base = vm.valstack_base := by
  have hc : vm.valstack_base + 0 + args ≤ vm.valstack_top + 0
      ∨ vm.valstack_top + 0 + args ≤ vm.valstack_base + 0 := Or.inl (by omega)
  let mem := copySlots vm.stack (vm.valstack_base + 0) (fun j => vm.stack (vm.valstack_top + 0 + j)) args
  refine ⟨{ vm with stack := mem }, by simp only [SLIDE, memcpy, if_pos hc, mem], ?_, ?_, rfl, rfl⟩
  · intro i hi
    show copySlots vm.stack (vm.valstack_base + 0) (fun j => vm.stack (vm.valstack_top + 0 + j)) args
      (vm.valstack_base + i) = vm.stack (vm.valstack_top + i)
    rw [Nat.add_zero, Nat.add_zero, copySlots_inside _ _ _ _ _ hi]
  · intro j hj
    show mem j = vm.stack j
    exact copySlots_outside _ _ _ _ _ (by rw [Nat.add_zero]; exact hj)

/-- C9: in a frame with one local (base 0, top 1) the two arguments of a tail call sit in
the slots 1 and 2, and `SLIDE(vm, 2)` copies them onto the slots 0 and 1 with `memcpy`.
The two runs share the slot 1, and `memcpy` has no defined result on runs that
overlap. -/
theorem C9_SLIDE_overlap_undefined :
    slideVM.valstack_base ≤ slideVM.valstack_top ∧ SLIDE slideVM 2 = none := by
  refine ⟨by decide, ?_⟩
  simp [SLIDE, memcpy, slideVM]

/-! ## The memory provider -/

theorem brk_zero (heapBase : Nat) (s : SbrkState) (h : s.brk heapBase = 0) : heapBase = 0 := by
  unfold SbrkState.brk at h
  by_cases hs : s.heap = 0
  · simpa [hs, NULL] using h
  · have hs2 : (s.heap == NULL) = false := by simpa [NULL] using hs
    rw [hs2] at h
    exact absurd h hs

theorem brk_of_heap (heapBase : Nat) (s : SbrkState) :
    s.brk heapBase = if s.heap = 0 then heapBase else s.heap := by
  unfold SbrkState.brk
  by_cases hs : s.heap = 0 <;> simp [hs, NULL]

theorem sbrk_step (w heapBase : Nat) (s : SbrkState) (incr : Int) (h0 : 0 ≤ incr)
    (hfit : (s.brk heapBase : Int) + incr < 2 ^ w) :
    (_sbrk w heapBase s incr).1 = s.brk heapBase
    ∧ (((_sbrk w heapBase s incr).2.brk heapBase : Nat) : Int) = (s.brk heapBase : Int) + incr := by
  refine ⟨rfl, ?_⟩
  have hnn : (0 : Int) ≤ (s.brk heapBase : Int) + incr := by omega
  have hmod : ((s.brk heapBase : Int) + incr) % (2 ^ w : Int) = (s.brk heapBase : Int) + incr :=
    Int.emod_eq_of_lt hnn hfit
  have hheap : (_sbrk w heapBase s incr).2.heap = ((s.brk heapBase : Int) + incr).toNat := by
    show (((s.brk heapBase : Int) + incr) % (2 ^ w : Int)).toNat = _
    rw [hmod]
  have hz := brk_zero heapBase s
  rw [brk_of_heap heapBase (_sbrk w heapBase s incr).2, hheap]
  generalize s.brk heapBase = b at *
  by_cases hc : ((b : Int) + incr).toNat = 0
  · rw [if_pos hc]
    have hb0 : b = 0 := by omega
    have := hz hb0
    omega
  · rw [if_neg hc]
    omega

theorem sbrkCalls_spec (w heapBase : Nat) (is : List Int) (s : SbrkState)
    (h0 : ∀ i ∈ is, (0 : Int) ≤ i) (hfit : (s.brk heapBase : Int) + is.sum < 2 ^ w) :
    (∀ r ∈ (sbrkCalls w heapBase s is).1, s.brk heapBase ≤ r)
    ∧ List.Pairwise (fun a b => a ≤ b) (sbrkCalls w heapBase s is).1
    ∧ (((sbrkCalls w heapBase s is).2.brk heapBase : Nat) : Int)
        = (s.brk heapBase : Int) + is.sum := by
  induction is generalizing s with
  | nil => simp [sbrkCalls]
  | cons i is ih =>
    have hi : (0 : Int) ≤ i := h0 i (List.mem_cons_self _ _)
    have hrest : ∀ j ∈ is, (0 : Int) ≤ j := fun j hj => h0 j (List.mem_cons_of_mem _ hj)
    have hsum : (0 : Int) ≤ is.sum := List.sum_nonneg hrest
    rw [List.sum_cons] at hfit
    obtain ⟨e1, e2⟩ := sbrk_step w heapBase s i hi (by omega)
    obtain ⟨j1, j2, j3⟩ := ih (_sbrk w heapBase s i).2 hrest (by rw [e2]; omega)
    have hle : s.brk heapBase ≤ (_sbrk w heapBase s i).2.brk heapBase := by omega
    simp only [sbrkCalls, List.mem_cons, List.pairwise_cons, List.sum_cons]
    refine ⟨?_, ⟨?_, j2⟩, ?_⟩
    · rintro r (rfl | hr)
      · rw [e1]
      · exact Nat.le_trans hle (j1 r hr)
    · intro r hr
      rw [e1]
      exact Nat.le_trans hle (j1 r hr)
    · rw [j3, e2]; ring

/-- C10, as stated: a negative increment lowers the break. With `&__HeapBase` at
0x20000000 on a 32-bit machine, `_sbrk(-8)` at the break 0x20000010 leaves the break at
0x20000008, and the calls `_sbrk(16)`, `_sbrk(-8)`, `_sbrk(0)` return 0x20000000,
0x20000010 and then the lower address 0x20000008. -/
theorem C10_sbrk_negative_increment_lowers_break :
    (_sbrk 32 0x20000000 ⟨0x20000010⟩ (-8)).2.brk 0x20000000
        < SbrkState.brk 0x20000000 ⟨0x20000010⟩
    ∧ (sbrkCalls 32 0x20000000 SbrkState.init [16, -8, 0]).1
        = [0x20000000, 0x20000010, 0x20000008] := by
  constructor <;> decide

/-- C10, amended: for every call `_sbrk(incr)` with `incr >= 0` that keeps the break within
the address space, the call returns the break before it and the break after it is
that break plus `incr`, so not lower; and over a sequence of calls with non-negative
increments that stays within the address space the returned addresses never decrease. -/
theorem C10_sbrk_monotone_on_nonnegative (w heapBase : Nat) (s : SbrkState) :
    (∀ incr : Int, 0 ≤ incr → (s.brk heapBase : Int) + incr < 2 ^ w →
        (_sbrk w heapBase s incr).1 = s.brk heapBase
        ∧ (((_sbrk w heapBase s incr).2.brk heapBase : Nat) : Int) = (s.brk heapBase : Int) + incr
        ∧ s.brk heapBase ≤ (_sbrk w heapBase s incr).2.brk heapBase)
    ∧ (∀ is : List Int, (∀ i ∈ is, (0 : Int) ≤ i) → (s.brk heapBase : Int) + is.sum < 2 ^ w →
        List.Pairwise (fun a b => a ≤ b) (sbrkCalls w heapBase s is).1
        ∧ s.brk heapBase ≤ (sbrkCalls w heapBase s is).2.brk heapBase) := by
  constructor
  · intro incr h0 hfit
    obtain ⟨e1, e2⟩ := sbrk_step w heapBase s incr h0 hfit
    exact ⟨e1, e2, by omega⟩
  · intro is h0 hfit
    obtain ⟨_, j2, j3⟩ := sbrkCalls_spec w heapBase is s h0 hfit
    have hsum : (0 : Int) ≤ is.sum := List.sum_nonneg h0
    exact ⟨j2, by omega⟩

/-- C10 amended, on a 32-bit machine with `&__HeapBase` at 0x20000000: the first call
`_sbrk(16)` returns the heap base and raises the break, and the calls `_sbrk(16)`,
`_sbrk(0)`, `_sbrk(8)` return addresses in non-decreasing order. -/
theorem C10_sbrk_monotone_on_nonnegative_witness :
    (_sbrk 32 0x20000000 SbrkState.init 16).1 = 0x20000000
    ∧ SbrkState.brk 0x20000000 SbrkState.init
        ≤ (_sbrk 32 0x20000000 SbrkState.init 16).2.brk 0x20000000
    ∧ List.Pairwise (fun a b => a ≤ b) (sbrkCalls 32 0x20000000 SbrkState.init [16, 0, 8]).1 :=
  have h := C10_sbrk_monotone_on_nonnegative 32 0x20000000 SbrkState.init
  have h1 := h.1 16 (by decide) (by decide)
  have h2 := h.2 [16, 0, 8] (by decide) (by decide)
  ⟨h1.1, h1.2.2, h2.1⟩



/-! ## Immediate integers: round trip and addition -/

theorem toSigned_cases (w : Nat) (x : Nat) :
    (x % 2 ^ w < 2 ^ (w - 1) ∧ toSigned w x = ((x % 2 ^ w : Nat) : Int))
    ∨ (2 ^ (w - 1) ≤ x % 2 ^ w ∧ toSigned w x = ((x % 2 ^ w : Nat) : Int) - ((2 ^ w : Nat) : Int)) := by
  unfold toSigned
  by_cases h : x % 2 ^ w < 2 ^ (w - 1)
  · left; exact ⟨h, by rw [if_pos h]⟩
  · right; exact ⟨by omega, by rw [if_neg h]; push_cast; rfl⟩

theorem GETINT_MKINT (w : Nat) (hw : 2 ≤ w) (x : Nat) :
    GETINT w (MKINT w x) = toSigned (w - 1) x := by
  obtain ⟨v, rfl⟩ : ∃ v, w = v + 2 := ⟨w - 2, by omega⟩
  rw [MKINT_eq (v + 2) (by omega) x]
  have e1 : v + 2 - 1 = v + 1 := rfl
  have e2 : v + 1 - 1 = v := rfl
  have hH : 0 < 2 ^ v := Nat.pos_pow_of_pos v (by decide)
  have p1 : (2 : Nat) ^ (v + 1) = 2 * 2 ^ v := by ring
  have p2 : (2 : Nat) ^ (v + 2) = 4 * 2 ^ v := by ring
  have hm : x % 2 ^ (v + 1) < 2 ^ (v + 1) := Nat.mod_lt _ (by omega)
  unfold GETINT
  rcases toSigned_cases (v + 2) (2 * (x % 2 ^ (v + 2 - 1)) + 1) with ⟨c1, c2⟩ | ⟨c1, c2⟩ <;>
    rcases toSigned_cases (v + 2 - 1) x with ⟨d1, d2⟩ | ⟨d1, d2⟩ <;>
    rw [c2, d2] <;> simp only [e1, e2] at * <;>
    rw [Nat.mod_eq_of_lt (by omega : 2 * (x % 2 ^ (v + 1)) + 1 < 2 ^ (v + 2))] at * <;>
    rw [p1] at * <;> rw [p2] at * <;>
    generalize x % (2 * 2 ^ v) = m at * <;> generalize 2 ^ v = H at * <;>
    push_cast <;> omega


theorem ofInt_nonneg (w : Nat) (x : Int) (h0 : 0 ≤ x) (h1 : x < 2 ^ w) :
    ((ofInt w x : Nat) : Int) = x := by
  unfold ofInt
  rw [Int.emod_eq_of_lt h0 h1, Int.toNat_of_nonneg h0]

theorem ofInt_neg (w : Nat) (x : Int) (h0 : x < 0) (h1 : -(2 ^ w : Int) ≤ x) :
    ((ofInt w x : Nat) : Int) = x + 2 ^ w := by
  unfold ofInt
  have e : x % (2 ^ w : Int) = x + 2 ^ w := by
    rw [← Int.add_emod_self]
    exact Int.emod_eq_of_lt (by omega) (by omega)
  rw [e, Int.toNat_of_nonneg (by omega)]

theorem toSigned_ofInt (w : Nat) (hw : 2 ≤ w) (x : Int)
    (hlo : -(2 ^ (w - 2) : Int) ≤ x) (hhi : x < 2 ^ (w - 2)) :
    toSigned (w - 1) (ofInt w x) = x := by
  obtain ⟨v, rfl⟩ : ∃ v, w = v + 2 := ⟨w - 2, by omega⟩
  have e0 : v + 2 - 2 = v := rfl
  have e1 : v + 2 - 1 = v + 1 := rfl
  have e2 : v + 1 - 1 = v := rfl
  rw [e0] at hlo hhi
  rw [e1]
  have hH : 0 < 2 ^ v := Nat.pos_pow_of_pos v (by decide)
  have p1 : (2 : Nat) ^ (v + 1) = 2 * 2 ^ v := by ring
  have q2 : (2 : Int) ^ (v + 2) = 4 * ((2 ^ v : Nat) : Int) := by push_cast; ring
  have q0 : (2 : Int) ^ v = ((2 ^ v : Nat) : Int) := by push_cast; rfl
  rw [q0] at hlo hhi
  by_cases hx : 0 ≤ x
  · have hN := ofInt_nonneg (v + 2) x hx (by rw [q2]; omega)
    have hmod : ofInt (v + 2) x % 2 ^ (v + 1) = ofInt (v + 2) x :=
      Nat.mod_eq_of_lt (by rw [p1]; omega)
    rcases toSigned_cases (v + 1) (ofInt (v + 2) x) with ⟨c1, c2⟩ | ⟨c1, c2⟩
    · rw [c2, hmod, hN]
    · rw [hmod, e2] at c1
      omega
  · have hN := ofInt_neg (v + 2) x (by omega) (by rw [q2]; omega)
    rw [q2] at hN
    have hge : (2 * 2 ^ v : Nat) ≤ (ofInt (v + 2) x : Nat) := by omega
    have hmod : ofInt (v + 2) x % 2 ^ (v + 1) = ofInt (v + 2) x - 2 * 2 ^ v := by
      rw [p1, Nat.mod_eq_sub_mod hge]
      exact Nat.mod_eq_of_lt (by omega)
    rcases toSigned_cases (v + 1) (ofInt (v + 2) x) with ⟨c1, c2⟩ | ⟨c1, c2⟩
    · rw [hmod, e2] at c1
      omega
    · rw [c2, hmod, p1]
      push_cast
      omega

theorem MKINT_eq_iff (w : Nat) (hw : 0 < w) (x y : Nat) :
    MKINT w x = MKINT w y ↔ x % 2 ^ (w - 1) = y % 2 ^ (w - 1) := by
  rw [MKINT_eq w hw x, MKINT_eq w hw y]
  generalize x % 2 ^ (w - 1) = a
  generalize y % 2 ^ (w - 1) = b
  unfold VAL
  omega


/-- C11: on words of `w >= 2` bits, `GETINT (MKINT x) = x` for every integer `x` with
`-2^(w-2) <= x < 2^(w-2)`, negative ones included; for an arbitrary word `x`,
`GETINT (MKINT x)` is the signed reading of the low `w-1` bits of `x`; and `MKINT` sends
two words to the same value exactly when their low `w-1` bits agree, so it is injective
on the integers of that range. -/
theorem C11_immediate_round_trip (w : Nat) (hw : 2 ≤ w) :
    (∀ x : Int, -(2 ^ (w - 2) : Int) ≤ x → x < 2 ^ (w - 2) →
        GETINT w (idris_mkInt w x) = x ∧ GETINT w (MKINT w (ofInt w x)) = x)
    ∧ (∀ x : Nat, GETINT w (MKINT w x) = toSigned (w - 1) x)
    ∧ (∀ x y : Nat, MKINT w x = MKINT w y ↔ x % 2 ^ (w - 1) = y % 2 ^ (w - 1))
    ∧ (∀ x y : Int, -(2 ^ (w - 2) : Int) ≤ x → x < 2 ^ (w - 2) →
        -(2 ^ (w - 2) : Int) ≤ y → y < 2 ^ (w - 2) →
        idris_mkInt w x = idris_mkInt w y → x = y) := by
  have rt : ∀ x : Int, -(2 ^ (w - 2) : Int) ≤ x → x < 2 ^ (w - 2) →
      GETINT w (idris_mkInt w x) = x := by
    intro x hlo hhi
    unfold idris_mkInt
    rw [GETINT_MKINT w hw, toSigned_ofInt w hw x hlo hhi]
  refine ⟨fun x hlo hhi => ⟨rt x hlo hhi, rt x hlo hhi⟩, GETINT_MKINT w hw,
    MKINT_eq_iff w (by omega), ?_⟩
  intro x y hx1 hx2 hy1 hy2 h
  rw [← rt x hx1 hx2, ← rt y hy1 hy2, h]

/-- C11 on 64-bit words: the round trip of -5, and the word 2^63 + 3, whose low 63 bits
read 3. -/
theorem C11_immediate_round_trip_witness :
    GETINT 64 (idris_mkInt 64 (-5)) = -5
    ∧ GETINT 64 (MKINT 64 (2 ^ 63 + 3)) = toSigned 63 (2 ^ 63 + 3)
    ∧ toSigned 63 (2 ^ 63 + 3) = 3
    ∧ MKINT 64 (2 ^ 63 + 3) = MKINT 64 3 :=
  have h := C11_immediate_round_trip 64 (by decide)
  ⟨(h.1 (-5) (by decide) (by decide)).1, h.2.1 (2 ^ 63 + 3), by decide,
    (h.2.2.1 (2 ^ 63 + 3) 3).2 (by decide)⟩

/-! ## Successful reservation -/

/-- C12: when `valstack_top + k <= stack_max`, `RESERVE(k)` finishes without fault, the `k`
slots `valstack_top[0 .. k-1]` are `NULL` afterwards, every slot below `valstack_top`
and every slot from `valstack_top + k` on is unchanged, and so are `valstack_top`,
`valstack_base`, `stack_max` and the rest of the VM; the top only moves with `ADDTOP`. -/
theorem C12_RESERVE_zeroes_exactly_k (k : Nat) (vm : VM)
    (h : vm.valstack_top + k ≤ vm.stack_max) :
    ∃ v, RESERVE k vm = .done v
      ∧ (∀ i, i < k → TOP v i = NULL)
      ∧ (∀ j, j < vm.valstack_top → v.stack j = vm.stack j)
      ∧ (∀ j, vm.valstack_top + k ≤ j → v.stack j = vm.stack j)
      ∧ v.valstack_top = vm.valstack_top ∧ v.valstack_base = vm.valstack_base
      ∧ v.stack_max = vm.stack_max ∧ v.valstack = vm.valstack
      ∧ v.heap = vm.heap ∧ v.ret = vm.ret ∧ v.reg1 = vm.reg1
      ∧ (ADDTOP k v).valstack_top = vm.valstack_top + k := by
  have hn : ¬ (vm.valstack_top + k > vm.stack_max) := by omega
  let mem := memset vm.stack vm.valstack_top k
  refine ⟨{ vm with stack := mem }, by simp only [RESERVE, if_neg hn, mem], ?_, ?_, ?_,
    rfl, rfl, rfl, rfl, rfl, rfl, rfl, rfl⟩
  · intro i hi
    show memset vm.stack vm.valstack_top k (vm.valstack_top + i) = NULL
    unfold memset
    rw [if_pos (by omega)]
    rfl
  · intro j hj
    show memset vm.stack vm.valstack_top k j = vm.stack j
    unfold memset
    rw [if_neg (by omega)]
  · intro j hj
    exact memset_above _ _ _ _ hj

/-- C12 on the sample VM (top 2, ceiling 4, slot `i` holding `10 + i`): after
`RESERVE(2)` the slots 2 and 3 are `NULL`, the slots 1 and 4 are as before. -/
theorem C12_RESERVE_zeroes_exactly_k_witness :
    ∃ v, RESERVE 2 sampleVM = .done v
      ∧ TOP v 0 = NULL ∧ TOP v 1 = NULL ∧ v.stack 1 = 11 ∧ v.stack 4 = 14
      ∧ v.valstack_top = 2 :=
  have ⟨v, h1, h2, h3, h4, h5, _⟩ := C12_RESERVE_zeroes_exactly_k 2 sampleVM (by decide)
  ⟨v, h1, h2 0 (by decide), h2 1 (by decide), h3 1 (by decide), h4 4 (by decide), h5⟩


/-! ## Tagged addition -/

theorem two_mul_add_one_emod (z H : Int) (hH : 0 < H) :
    (2 * z + 1) % (2 * H) = 2 * (z % H) + 1 := by
  have h1 := Int.emod_add_ediv z H
  have h2 := Int.emod_nonneg z (ne_of_gt hH)
  have h3 := Int.emod_lt_of_pos z hH
  have e : 2 * z + 1 = (2 * (z % H) + 1) + (2 * H) * (z / H) := by
    linear_combination (-2 : Int) * h1
  rw [e, Int.add_mul_emod_self_left]
  exact Int.emod_eq_of_lt (by omega) (by omega)

theorem ofInt_cast (w : Nat) (t : Int) : ((ofInt w t : Nat) : Int) = t % 2 ^ w := by
  unfold ofInt
  exact Int.toNat_of_nonneg (Int.emod_nonneg _ (by positivity))

theorem toSigned_odd (w : Nat) (hw : 0 < w) (x : Nat) (hx : ISINT x = true) :
    toSigned w x = 2 * (toSigned w x / 2) + 1 := by
  obtain ⟨v, rfl⟩ : ∃ v, w = v + 1 := ⟨w - 1, by omega⟩
  have hodd : x % 2 = 1 := by
    rw [ISINT_eq_low_bit] at hx
    simpa using hx
  have p : (2 : Nat) ^ (v + 1) = 2 * 2 ^ v := by ring
  have hp : x % 2 ^ (v + 1) % 2 = 1 := by
    rw [Nat.mod_mod_of_dvd x (Dvd.intro (2 ^ v) p.symm)]
    exact hodd
  rcases toSigned_cases (v + 1) x with ⟨_, c⟩ | ⟨_, c⟩ <;> rw [c, p] <;> rw [p] at hp <;>
    generalize x % (2 * 2 ^ v) = m at * <;> generalize 2 ^ v = H at * <;>
    push_cast <;> omega

theorem ISINT_MKINT (w : Nat) (hw : 0 < w) (x : Nat) : ISINT (MKINT w x) = true := by
  rw [ISINT_eq_low_bit, MKINT_eq w hw x]
  generalize x % 2 ^ (w - 1) = y
  simp only [decide_eq_true_eq]
  unfold VAL
  omega

theorem ADD_eq_INTOP (w : Nat) (hw : 0 < w) (x y : VAL) (hx : ISINT x = true)
    (hy : ISINT y = true) : ADD w x y = INTOP w (fun a b => a + b) x y := by
  have ox := toSigned_odd w hw x hx
  have oy := toSigned_odd w hw y hy
  unfold ADD INTOP
  rw [MKINT_eq w hw]
  beta_reduce
  generalize toSigned w x = sx at *
  generalize toSigned w y = sy at *
  have es : sx + (sy - 1) = 2 * (sx / 2 + sy / 2) + 1 := by omega
  rw [es]
  generalize sx / 2 + sy / 2 = z
  obtain ⟨v, rfl⟩ : ∃ v, w = v + 1 := ⟨w - 1, by omega⟩
  have e1 : v + 1 - 1 = v := rfl
  rw [e1]
  have hH : (0 : Int) < 2 ^ v := by positivity
  have p : (2 : Int) ^ (v + 1) = 2 * 2 ^ v := by ring
  have lhs : ((ofInt (v + 1) (2 * z + 1) : Nat) : Int) = 2 * (z % 2 ^ v) + 1 := by
    rw [ofInt_cast, p, two_mul_add_one_emod z _ hH]
  have rhs : ((2 * (ofInt (v + 1) z % 2 ^ v) + 1 : Nat) : Int) = 2 * (z % 2 ^ v) + 1 := by
    push_cast
    rw [ofInt_cast, Int.emod_emod_of_dvd z (Dvd.intro_left 2 p.symm)]
  exact Int.ofNat.inj (lhs.trans rhs.symm)

/-- C13: for immediate integers `x` and `y` on words of any positive width, `ADD(x, y)` is
`INTOP(+, x, y)`, which is `MKINT(GETINT(x) + GETINT(y))` with the sum kept in a word,
and the result of `ADD` is an immediate integer again. -/
theorem C13_ADD_agrees_with_INTOP (w : Nat) (hw : 0 < w) (x y : VAL)
    (hx : ISINT x = true) (hy : ISINT y = true) :
    ADD w x y = INTOP w (fun a b => a + b) x y
    ∧ INTOP w (fun a b => a + b) x y = MKINT w (ofInt w (GETINT w x + GETINT w y))
    ∧ ISINT (ADD w x y) = true := by
  refine ⟨ADD_eq_INTOP w hw x y hx hy, rfl, ?_⟩
  rw [ADD_eq_INTOP w hw x y hx hy]
  exact ISINT_MKINT w hw _

/-- C13 on 64-bit words: the immediate integers -3 and 5 add up to the immediate 2. -/
theorem C13_ADD_agrees_with_INTOP_witness :
    ADD 64 (idris_mkInt 64 (-3)) (idris_mkInt 64 5)
        = INTOP 64 (fun a b => a + b) (idris_mkInt 64 (-3)) (idris_mkInt 64 5)
    ∧ INTOP 64 (fun a b => a + b) (idris_mkInt 64 (-3)) (idris_mkInt 64 5) = idris_mkInt 64 2
    ∧ ISINT (ADD 64 (idris_mkInt 64 (-3)) (idris_mkInt 64 5)) = true :=
  have h := C13_ADD_agrees_with_INTOP 64 (by decide) (idris_mkInt 64 (-3)) (idris_mkInt 64 5)
    (by decide) (by decide)
  ⟨h.1, by decide, h.2.2⟩

/-! ## Capacity of the constructor header -/

theorem header_eq (t a : Nat) (ha : a < 256) (ht : t < 2 ^ 24) :
    ((t <<< 8) ||| a) % 2 ^ 32 = 2 ^ 8 * t + a := by
  have ha8 : a < 2 ^ 8 := ha
  rw [Nat.shiftLeft_eq, Nat.mul_comm, ← Nat.mul_add_lt_is_or ha8 t]
  exact Nat.mod_eq_of_lt (by omega)

theorem header_tag (t a : Nat) (ha : a < 256) : (2 ^ 8 * t + a) >>> 8 = t := by
  rw [Nat.shiftRight_eq_div_pow]
  omega

theorem header_arity (t a : Nat) (ha : a < 256) : (2 ^ 8 * t + a) &&& 0x000000ff = a := by
  show (2 ^ 8 * t + a) &&& (2 ^ 8 - 1) = a
  rw [Nat.and_pow_two_sub_one_eq_mod]
  omega

theorem TAG_ARITY_of_con (heap : Heap) (x : VAL) (cl : Closure) (hint : ISINT x = false)
    (hnull : x ≠ NULL) (hx : heap x = some cl) (hty : GETTY cl = CT_CON) :
    TAG heap x = some ((CTAG cl : Nat) : Int) ∧ ARITY heap x = some ((CARITY cl : Nat) : Int) := by
  have hc : ¬ ((ISINT x || x == NULL) = true) := by simp [hint, hnull]
  unfold TAG ARITY
  simp only [if_neg hc, hx, hty, beq_self_eq_true, if_true]
  exact ⟨rfl, rfl⟩

/-- C14: for every arity below 256 and every tag below 2^24, the header written by
`allocCon` and by `updateCon` has type `CT_CON` and reads back that tag and that arity
through `CTAG` and `CARITY`, and through `TAG` and `ARITY` at any address (not null,
low bit clear) where the block is stored. -/
theorem C14_header_capacity (fresh : Nat → Closure) (old : Closure) (t a : Nat)
    (ha : a < 256) (ht : t < 2 ^ 24) :
    (GETTY (allocCon fresh t a) = CT_CON ∧ CTAG (allocCon fresh t a) = t
      ∧ CARITY (allocCon fresh t a) = a)
    ∧ (GETTY (updateCon old t a) = CT_CON ∧ CTAG (updateCon old t a) = t
      ∧ CARITY (updateCon old t a) = a)
    ∧ (∀ (heap : Heap) (x : VAL), ISINT x = false → x ≠ NULL →
        (heap x = some (allocCon fresh t a) ∨ heap x = some (updateCon old t a)) →
        TAG heap x = some (t : Int) ∧ ARITY heap x = some (a : Int)) := by
  have h1 : GETTY (allocCon fresh t a) = CT_CON := rfl
  have h2 : CTAG (allocCon fresh t a) = t := by
    show (((t <<< 8) ||| a) % 2 ^ 32) >>> 8 = t
    rw [header_eq t a ha ht, header_tag t a ha]
  have h3 : CARITY (allocCon fresh t a) = a := by
    show (((t <<< 8) ||| a) % 2 ^ 32) &&& 0x000000ff = a
    rw [header_eq t a ha ht, header_arity t a ha]
  have k1 : GETTY (updateCon old t a) = CT_CON := rfl
  have k2 : CTAG (updateCon old t a) = t := by
    show (((t <<< 8) ||| a) % 2 ^ 32) >>> 8 = t
    rw [header_eq t a ha ht, header_tag t a ha]
  have k3 : CARITY (updateCon old t a) = a := by
    show (((t <<< 8) ||| a) % 2 ^ 32) &&& 0x000000ff = a
    rw [header_eq t a ha ht, header_arity t a ha]
  refine ⟨⟨h1, h2, h3⟩, ⟨k1, k2, k3⟩, ?_⟩
  intro heap x hint hnull hx
  rcases hx with hx | hx
  · obtain ⟨e1, e2⟩ := TAG_ARITY_of_con heap x _ hint hnull hx h1
    rw [e1, e2, h2, h3]
    exact ⟨rfl, rfl⟩
  · obtain ⟨e1, e2⟩ := TAG_ARITY_of_con heap x _ hint hnull hx k1
    rw [e1, e2, k2, k3]
    exact ⟨rfl, rfl⟩

/-- C14 at the largest header: arity 255 and tag 2^24 - 1, through `allocCon` into a blank
block stored at address 4096 and through `updateCon` of a string block. -/
theorem C14_header_capacity_witness :
    CTAG (allocCon blankBlock 16777215 255) = 16777215
    ∧ CARITY (allocCon blankBlock 16777215 255) = 255
    ∧ GETTY (updateCon ⟨CT_STRING, 7, []⟩ 16777215 255) = CT_CON
    ∧ TAG (fun _ => some (allocCon blankBlock 16777215 255)) 4096 = some 16777215
    ∧ ARITY (fun _ => some (allocCon blankBlock 16777215 255)) 4096 = some 255 :=
  have h := C14_header_capacity blankBlock ⟨CT_STRING, 7, []⟩ 16777215 255 (by decide) (by decide)
  have g := h.2.2 (fun _ => some (allocCon blankBlock 16777215 255)) 4096 (by decide)
    (by decide) (Or.inl rfl)
  ⟨h.1.2.1, h.1.2.2, h.2.1.1, g.1, g.2⟩

/-- C15: for a value that is not null and not an immediate integer, whose type is `CT_CON`,
and for every 32-bit content of its `tag_arity` field, `TAG` is `CTAG` and lies below
2^24, `ARITY` is `CARITY` and lies below 256, and neither is the sentinel -1. -/
theorem C15_sentinel_never_collides (heap : Heap) (x : VAL) (cl : Closure)
    (hint : ISINT x = false) (hnull : x ≠ NULL) (hx : heap x = some cl)
    (hty : GETTY cl = CT_CON) (h32 : cl.tag_arity < 2 ^ 32) :
    TAG heap x = some ((CTAG cl : Nat) : Int) ∧ CTAG cl < 2 ^ 24
    ∧ ARITY heap x = some ((CARITY cl : Nat) : Int) ∧ CARITY cl < 256
    ∧ TAG heap x ≠ some (-1) ∧ ARITY heap x ≠ some (-1) := by
  obtain ⟨e1, e2⟩ := TAG_ARITY_of_con heap x cl hint hnull hx hty
  have b1 : CTAG cl < 2 ^ 24 := by
    unfold CTAG
    rw [Nat.shiftRight_eq_div_pow]
    omega
  have b2 : CARITY cl < 256 := by
    unfold CARITY
    exact Nat.and_lt_two_pow _ (by decide : 0x000000ff < 2 ^ 8)
  refine ⟨e1, b1, e2, b2, ?_, ?_⟩
  · rw [e1]
    intro h
    have := Option.some.inj h
    omega
  · rw [e2]
    intro h
    have := Option.some.inj h
    omega

/-- C15 on a constructor at address 4096 whose `tag_arity` field holds all ones. -/
theorem C15_sentinel_never_collides_witness :
    TAG (fun _ => some ⟨CT_CON, 0xffffffff, []⟩) 4096 = some 16777215
    ∧ ARITY (fun _ => some ⟨CT_CON, 0xffffffff, []⟩) 4096 = some 255
    ∧ TAG (fun _ => some ⟨CT_CON, 0xffffffff, []⟩) 4096 ≠ some (-1)
    ∧ ARITY (fun _ => some ⟨CT_CON, 0xffffffff, []⟩) 4096 ≠ some (-1) :=
  have h := C15_sentinel_never_collides (fun _ => some ⟨CT_CON, 0xffffffff, []⟩) 4096
    ⟨CT_CON, 0xffffffff, []⟩ (by decide) (by decide) rfl rfl (by decide)
  ⟨h.1, h.2.2.1, h.2.2.2.2.1, h.2.2.2.2.2⟩



/-! ## Blocks handed out by the memory provider -/

theorem sbrk_step_within (w heapBase : Nat) (s : SbrkState) (incr : Int)
    (hpos : 0 < (s.brk heapBase : Int) + incr) (hfit : (s.brk heapBase : Int) + incr < 2 ^ w) :
    (_sbrk w heapBase s incr).1 = s.brk heapBase
    ∧ (((_sbrk w heapBase s incr).2.brk heapBase : Nat) : Int) = (s.brk heapBase : Int) + incr := by
  refine ⟨rfl, ?_⟩
  have hmod : ((s.brk heapBase : Int) + incr) % (2 ^ w : Int) = (s.brk heapBase : Int) + incr :=
    Int.emod_eq_of_lt (by omega) hfit
  have hheap : (_sbrk w heapBase s incr).2.heap = ((s.brk heapBase : Int) + incr).toNat := by
    show (((s.brk heapBase : Int) + incr) % (2 ^ w : Int)).toNat = _
    rw [hmod]
  rw [brk_of_heap heapBase (_sbrk w heapBase s incr).2, hheap]
  generalize s.brk heapBase = b at *
  rw [if_neg (by omega)]
  omega

theorem sbrkCalls_partial_sums (w heapBase : Nat) (is : List Int) (s : SbrkState)
    (h : ∀ k, 1 ≤ k → k ≤ is.length →
      0 < (s.brk heapBase : Int) + (is.take k).sum
      ∧ (s.brk heapBase : Int) + (is.take k).sum < 2 ^ w) :
    (sbrkCalls w heapBase s is).1.length = is.length
    ∧ ∀ (k r : Nat), (sbrkCalls w heapBase s is).1[k]? = some r →
        (r : Int) = (s.brk heapBase : Int) + (is.take k).sum := by
  induction is generalizing s with
  | nil => simp [sbrkCalls]
  | cons i is ih =>
    have h1 := h 1 (Nat.le_refl 1) (by simp)
    simp only [List.take_succ_cons, List.take_zero, List.sum_cons, List.sum_nil,
      Int.add_zero] at h1
    obtain ⟨e1, e2⟩ := sbrk_step_within w heapBase s i h1.1 h1.2
    have hrest : ∀ k, 1 ≤ k → k ≤ is.length →
        0 < ((_sbrk w heapBase s i).2.brk heapBase : Int) + (is.take k).sum
        ∧ ((_sbrk w heapBase s i).2.brk heapBase : Int) + (is.take k).sum < 2 ^ w := by
      intro k _ hk2
      have := h (k + 1) (by omega) (by simpa using hk2)
      simp only [List.take_succ_cons, List.sum_cons] at this
      rw [e2]
      constructor
      · linarith [this.1]
      · linarith [this.2]
    obtain ⟨l1, l2⟩ := ih (_sbrk w heapBase s i).2 hrest
    simp only [sbrkCalls, List.length_cons]
    refine ⟨by rw [l1], ?_⟩
    intro k r hr
    cases k with
    | zero =>
      simp only [List.getElem?_cons_zero, Option.some.injEq] at hr
      rw [← hr, e1]
      simp
    | succ k =>
      simp only [List.getElem?_cons_succ] at hr
      rw [l2 k r hr, e2, List.take_succ_cons, List.sum_cons]
      ring

theorem sbrkCalls_blocks_disjoint (w heapBase : Nat) (is : List Int) (s : SbrkState)
    (h0 : ∀ i ∈ is, (0 : Int) ≤ i) (hfit : (s.brk heapBase : Int) + is.sum < 2 ^ w) :
    List.Pairwise (fun a b : Nat × Int => (a.1 : Int) + a.2 ≤ (b.1 : Int))
      ((sbrkCalls w heapBase s is).1.zip is) := by
  induction is generalizing s with
  | nil => simp [sbrkCalls]
  | cons i is ih =>
    have hi : (0 : Int) ≤ i := h0 i (List.mem_cons_self _ _)
    have hrest : ∀ j ∈ is, (0 : Int) ≤ j := fun j hj => h0 j (List.mem_cons_of_mem _ hj)
    have hsum : (0 : Int) ≤ is.sum := List.sum_nonneg hrest
    rw [List.sum_cons] at hfit
    obtain ⟨e1, e2⟩ := sbrk_step w heapBase s i hi (by omega)
    have hfit2 : (((_sbrk w heapBase s i).2.brk heapBase : Nat) : Int) + is.sum < 2 ^ w := by
      rw [e2]; omega
    obtain ⟨j1, _, _⟩ := sbrkCalls_spec w heapBase is (_sbrk w heapBase s i).2 hrest hfit2
    simp only [sbrkCalls, List.zip_cons_cons, List.pairwise_cons]
    refine ⟨?_, ih (_sbrk w heapBase s i).2 hrest hfit2⟩
    rintro ⟨r, j⟩ hb
    have hr := j1 r (List.of_mem_zip hb).1
    show (((_sbrk w heapBase s i).1 : Nat) : Int) + i ≤ (r : Int)
    rw [e1]
    omega

theorem sum_take_succ_of_getElem? (is : List Int) (k : Nat) (i : Int) (h : is[k]? = some i) :
    (is.take (k + 1)).sum = (is.take k).sum + i := by
  induction is generalizing k with
  | nil => simp at h
  | cons j js ih =>
    cases k with
    | zero =>
      simp only [List.getElem?_cons_zero, Option.some.injEq] at h
      simp [h]
    | succ k =>
      simp only [List.getElem?_cons_succ] at h
      simp only [List.take_succ_cons, List.sum_cons, ih k h]
      ring

/-- C16, as stated: two sequences of calls on a 32-bit machine with `&__HeapBase` at
0x20000000. Three calls `_sbrk(0x7fffffff)` return 0x20000000, 0x9fffffff and 0x1ffffffe:
the third address is not the heap base plus the two increments before it, and the
third block, from 0x1ffffffe on, contains the start of the first. The calls
`_sbrk(-0x20000000)`, `_sbrk(8)`, `_sbrk(0)` return the heap base twice: the break at
address 0 reads as `NULL` and is set to the heap base again. -/
theorem C16_sbrk_blocks_wrap_and_restart :
    (sbrkCalls 32 0x20000000 SbrkState.init [0x7fffffff, 0x7fffffff, 0x7fffffff]).1
        = [0x20000000, 0x9fffffff, 0x1ffffffe]
    ∧ ((0x1ffffffe : Nat) : Int) ≠ 0x20000000 + (0x7fffffff + 0x7fffffff)
    ∧ ((0x1ffffffe : Int) ≤ 0x20000000 ∧ (0x20000000 : Int) < 0x1ffffffe + 0x7fffffff)
    ∧ (sbrkCalls 32 0x20000000 SbrkState.init [-0x20000000, 8, 0]).1
        = [0x20000000, 0x20000000, 0x20000008]
    ∧ ((0x20000000 : Nat) : Int) ≠ 0x20000000 + -0x20000000 := by
  refine ⟨by decide, by decide, ⟨by decide, by decide⟩, by decide, by decide⟩

/-- C16, amended: `_sbrk` has no failure path, every call returns the break before it, the
first one `&__HeapBase`. For every sequence of calls during which the break stays
inside the address space and off address 0, the call number `k` (from 0) returns
`&__HeapBase` plus the increments before it, so each block starts where the one before
ends; and when the increments are non-negative the blocks are pairwise disjoint. -/
theorem C16_sbrk_contiguous_blocks (w heapBase : Nat) :
    (∀ (s : SbrkState) (incr : Int), (_sbrk w heapBase s incr).1 = s.brk heapBase)
    ∧ (∀ incr : Int, (_sbrk w heapBase SbrkState.init incr).1 = heapBase)
    ∧ (∀ is : List Int,
        (∀ k, k ≤ is.length →
          0 < (heapBase : Int) + (is.take k).sum ∧ (heapBase : Int) + (is.take k).sum < 2 ^ w) →
        (sbrkCalls w heapBase SbrkState.init is).1.length = is.length
        ∧ (∀ (k r : Nat), (sbrkCalls w heapBase SbrkState.init is).1[k]? = some r →
            (r : Int) = (heapBase : Int) + (is.take k).sum)
        ∧ (∀ (k r t : Nat) (i : Int),
            (sbrkCalls w heapBase SbrkState.init is).1[k]? = some r → is[k]? = some i →
            (sbrkCalls w heapBase SbrkState.init is).1[k + 1]? = some t → (t : Int) = (r : Int) + i)
        ∧ ((∀ i ∈ is, (0 : Int) ≤ i) →
            List.Pairwise (fun a b : Nat × Int => (a.1 : Int) + a.2 ≤ (b.1 : Int))
              ((sbrkCalls w heapBase SbrkState.init is).1.zip is))) := by
  have hinit : SbrkState.init.brk heapBase = heapBase := rfl
  refine ⟨fun _ _ => rfl, fun _ => rfl, ?_⟩
  intro is h
  obtain ⟨l1, l2⟩ := sbrkCalls_partial_sums w heapBase is SbrkState.init
    (fun k _ hk => by rw [hinit]; exact h k hk)
  rw [hinit] at l2
  refine ⟨l1, l2, ?_, ?_⟩
  · intro k r t i hr hi ht
    rw [l2 (k + 1) t ht, l2 k r hr, sum_take_succ_of_getElem? is k i hi]
    ring
  · intro h0
    have hfit := (h is.length (Nat.le_refl _)).2
    rw [List.take_length] at hfit
    exact sbrkCalls_blocks_disjoint w heapBase is SbrkState.init h0 (by rw [hinit]; exact hfit)

/-- C16 amended, on a 32-bit machine with `&__HeapBase` at 0x20000000 and the calls
`_sbrk(16)`, `_sbrk(0)`, `_sbrk(8)`: three addresses are returned, the third is the heap
base plus 16, and the blocks are pairwise disjoint. -/
theorem C16_sbrk_contiguous_blocks_witness :
    (sbrkCalls 32 0x20000000 SbrkState.init [16, 0, 8]).1.length = 3
    ∧ (sbrkCalls 32 0x20000000 SbrkState.init [16, 0, 8]).1[2]? = some 0x20000010
    ∧ ((0x20000010 : Nat) : Int) = (0x20000000 : Nat) + ([16, 0, 8].take 2).sum
    ∧ List.Pairwise (fun a b : Nat × Int => (a.1 : Int) + a.2 ≤ (b.1 : Int))
        ((sbrkCalls 32 0x20000000 SbrkState.init [16, 0, 8]).1.zip [16, 0, 8]) :=
  have h := (C16_sbrk_contiguous_blocks 32 0x20000000).2.2 [16, 0, 8] (by decide)
  ⟨h.1, by decide, h.2.1 2 0x20000010 (by decide), h.2.2.2 (by decide)⟩

end IdrisRTS
